import Mathlib

set_option maxRecDepth 100000
set_option maxHeartbeats 2000000

/-!
Shallow embedding of the carnatus chess engine (Go) in Lean 4.

The Go source lives in two files: the chess core (piece/board model, FEN
parsing, move generation, move application, evaluator and alpha-beta
searcher) and a CLI/UCI shell.  Every definition below is a direct
translation of the corresponding Go function; Go panics (out-of-range
array indexing) are modelled by `Option`/`Except` failure, Go `int` by
`Int`, Go `byte`-valued pieces by `Char`.
-/

namespace Carnatus

/-- Piece is a chess piece, encoded as its Go byte / character literal:
uppercase = side to move ("ours"), lowercase = opponent, `'.'` = empty
square, `' '` = off-board padding. -/
abbrev Piece := Char

/-- Go `Piece.value`: map lookup with default 0 for anything that is not
one of our six piece letters. -/
def Piece.value (p : Piece) : Int :=
  if p = 'P' then 100
  else if p = 'N' then 280
  else if p = 'B' then 320
  else if p = 'R' then 479
  else if p = 'Q' then 929
  else if p = 'K' then 60000
  else 0

/-- Go `Piece.ours`: a piece belongs to the side to move iff its value is
positive. -/
def Piece.ours (p : Piece) : Bool := p.value > 0

/-- Go `Piece.Flip`: case-swap through a fixed map; a Go map miss yields
the zero byte `Piece(0)`. -/
def Piece.Flip (p : Piece) : Piece :=
  if p = 'P' then 'p'
  else if p = 'N' then 'n'
  else if p = 'B' then 'b'
  else if p = 'R' then 'r'
  else if p = 'Q' then 'q'
  else if p = 'K' then 'k'
  else if p = 'p' then 'P'
  else if p = 'n' then 'N'
  else if p = 'b' then 'B'
  else if p = 'r' then 'R'
  else if p = 'q' then 'Q'
  else if p = 'k' then 'K'
  else if p = ' ' then ' '
  else if p = '.' then '.'
  else Char.ofNat 0

/-- Go `Board`: a `[120]Piece` array (12 rows x 10 columns, the inner 8x8
region padded by off-board sentinels).  Modelled as a list of pieces whose
length is 120 for every board actually built by the program. -/
abbrev Board := List Piece

/-- Reading `b[i]` in Go: panics (here: `none`) when the index is outside
`[0, len b)`. -/
def Board.get (b : Board) (i : Int) : Option Piece :=
  if i < 0 then none else b.get? i.toNat

/-- Writing `b[i] = p` in Go.  (The writes performed by the program are
always in range for its 120-cell boards; `List.set` ignores out-of-range
indices.) -/
def Board.set (b : Board) (i : Int) (p : Piece) : Board :=
  if i < 0 then b else List.set b i.toNat p

/-- Go `Board.Flip`: `b[i] = a[119-i].Flip()` — reverse the cells and
case-swap every piece. -/
def Board.Flip (a : Board) : Board := a.reverse.map Piece.Flip

/-- Go corner constants `A1, H1, A8, H8 = 91, 98, 21, 28`. -/
def A1 : Int := 91
def H1 : Int := 98
def A8 : Int := 21
def H8 : Int := 28

/-- Go direction constants `N, E, S, W = -10, 1, 10, -1`. -/
def N : Int := -10
def E : Int := 1
def S : Int := 10
def W : Int := -1

/-- Go `Square.Flip`: point reflection `119 - s`. -/
def Square.Flip (s : Int) : Int := 119 - s

/-- Go `Square.String`: file letter from `" abcdefgh "[s%10]` and rank
digit from `"  87654321  "[s/10]` (total rendering; the program only ever
prints squares in `[0,120)`, where list indexing is in range). -/
def Square.str (s : Int) : String :=
  let files := [' ', 'a', 'b', 'c', 'd', 'e', 'f', 'g', 'h', ' ']
  let ranks := [' ', ' ', '8', '7', '6', '5', '4', '3', '2', '1', ' ', ' ']
  String.mk [files.getD (s % 10).toNat ' ', ranks.getD (s / 10).toNat ' ']

/-- Go `Board.String`: a human-readable 8x8 render, one leading newline
and one newline after each of the eight rows. -/
def Board.render (a : Board) : String :=
  "\n" ++ String.join (((List.range 8).map (fun r =>
    String.mk (((List.range 8).map (fun c =>
      (Board.get a ((r + 2) * 10 + (c + 1))).getD ' ')) ++ ['\n']))))

/-- One row of Go `FEN`'s inner loop: scan the row's characters, expanding
digits `1`-`8` into dots, rejecting characters that are neither a digit
nor a piece letter, writing pieces at the running index. -/
def fenRow : List Char → Board → Int → Except String (Board × Int)
  | [], b, index => .ok (b, index)
  | c :: rest, b, index =>
    if '1' ≤ c ∧ c ≤ '8' then
      let n : Nat := c.toNat - '0'.toNat
      fenRow rest ((List.range n).foldl (fun bb k => Board.set bb (index + k) '.') b) (index + n)
    else if Piece.value c = 0 ∧ Piece.value (Piece.Flip c) = 0 then
      .error ("invalid piece value: " ++ String.mk [c])
    else
      fenRow rest (Board.set b index c) (index + 1)

/-- The row loop of Go `FEN`: row `i` starts at index `i*10 + 21` and must
end with `index % 10 == 9`. -/
def fenRows : List (List Char) → Board → Nat → Except String Board
  | [], b, _ => .ok b
  | r :: rest, b, i =>
    match fenRow r b (i * 10 + 21) with
    | .error e => .error e
    | .ok (b', index) =>
      if index % 10 ≠ 9 then .error "invalid row length"
      else fenRows rest b' (i + 1)

/-- Splitting a character list at every occurrence of a separator, as Go
`strings.Split` does for a one-character separator (an empty input yields
one empty field). -/
def splitOnChar (sep : Char) : List Char → List (List Char)
  | [] => [[]]
  | c :: rest =>
    if c = sep then [] :: splitOnChar sep rest
    else
      match splitOnChar sep rest with
      | [] => [[c]]
      | g :: gs => (c :: g) :: gs

/-- Go `FEN`: parse a FEN string into a board (flipped when the
side-to-move field is `"b"`), or return an error for malformed input. -/
def fen (s : String) : Except String Board :=
  let parts := splitOnChar ' ' s.toList
  let rows := splitOnChar '/' (parts.headD [])
  if rows.length ≠ 8 then .error "FEN should have 8 rows"
  else
    match fenRows rows (List.replicate 120 ' ') 0 with
    | .error e => .error e
    | .ok b =>
      if parts.length > 1 ∧ parts.get? 1 = some ['b'] then .ok b.Flip else .ok b

/-- Go `Move`: an ordered pair of squares. -/
structure Move where
  from' : Int
  to' : Int
deriving DecidableEq, Repr

/-- Go `Move.String`: algebraic notation, e.g. `"e2e4"`. -/
def Move.str (m : Move) : String := Square.str m.from' ++ Square.str m.to'

/-- Go `Position`: board plus game state, always stored from the
side-to-move's perspective. -/
structure Position where
  board : Board
  score : Int
  wc : Bool × Bool
  bc : Bool × Bool
  ep : Int
  kp : Int
deriving DecidableEq, Repr

/-- Go `Position.Flip`: flip the board, negate the score, swap the
castling-flag pairs, reflect the en-passant and king-passant squares. -/
def Position.Flip (pos : Position) : Position :=
  { board := pos.board.Flip
    score := -pos.score
    wc := pos.bc
    bc := pos.wc
    ep := Square.Flip pos.ep
    kp := Square.Flip pos.kp }

/-- The per-piece direction table of Go `Position.Moves`. -/
def directions (p : Piece) : List Int :=
  if p = 'P' then [N, N + N, N + W, N + E]
  else if p = 'N' then
    [N + N + E, E + N + E, E + S + E, S + S + E, S + S + W, W + S + W, W + N + W, N + N + W]
  else if p = 'B' then [N + E, S + E, S + W, N + W]
  else if p = 'R' then [N, E, S, W]
  else if p = 'Q' then [N, E, S, W, N + E, S + E, S + W, N + W]
  else if p = 'K' then [N, E, S, W, N + E, S + E, S + W, N + W]
  else []

/-- The castling emission of Go `Position.Moves`: when the sliding origin
is a corner rook square adjacent to our king and the matching castling
flag is set, emit the two-square king move.  Reading `board[j+E]` /
`board[j+W]` can in principle be out of range (`none` = Go panic). -/
def castleMoves (pos : Position) (i j : Int) : Option (List Move) :=
  match (if i = A1 then Board.get pos.board (j + E) else some '-') with
  | none => none
  | some qe =>
    match (if i = H1 then Board.get pos.board (j + W) else some '-') with
    | none => none
    | some qw =>
      some ((if i = A1 ∧ qe = 'K' ∧ pos.wc.1 then [⟨j + E, j + W⟩] else []) ++
            (if i = H1 ∧ qw = 'K' ∧ pos.wc.2 then [⟨j + W, j + E⟩] else []))

/-- The inner ray walk of Go `Position.Moves` (`for j := i + d; ; j = j + d`).
`fuel` bounds the iteration count; a fuel of 130 can never be exhausted
from an in-range start (each step moves `j` by the nonzero offset `d`, so
within 120 steps the walk either stops or reads out of range).  `none`
models a Go panic (board read out of `[0,120)`). -/
def rayGo (pos : Position) (p : Piece) (i d : Int) : Nat → Int → Option (List Move)
  | 0, _ => none
  | fuel + 1, j =>
    match Board.get pos.board j with
    | none => none
    | some q =>
      if q = ' ' ∨ (q ≠ '.' ∧ q.ours) then some []
      else if p = 'P' ∧ (d = N ∨ d = N + N) ∧ q ≠ '.' then some []
      else
        match (if p = 'P' ∧ d = N + N ∧ ¬ i < A1 + N then Board.get pos.board (i + N) else some '-') with
        | none => none
        | some qn =>
          if p = 'P' ∧ d = N + N ∧ (i < A1 + N ∨ qn ≠ '.') then some []
          else if p = 'P' ∧ (d = N + W ∨ d = N + E) ∧ q = '.' ∧
              (j ≠ pos.ep ∧ j ≠ pos.kp ∧ j ≠ pos.kp - 1 ∧ j ≠ pos.kp + 1) then some []
          else
            if p = 'P' ∨ p = 'N' ∨ p = 'K' ∨ (q ≠ ' ' ∧ q ≠ '.' ∧ ¬ q.ours) then
              some [⟨i, j⟩]
            else
              match castleMoves pos i j with
              | none => none
              | some cm =>
                match rayGo pos p i d fuel (j + d) with
                | none => none
                | some ms => some (⟨i, j⟩ :: cm ++ ms)

/-- The direction loop of Go `Position.Moves` for one origin square. -/
def raysFor (pos : Position) (p : Piece) (i : Int) : List Int → Option (List Move)
  | [] => some []
  | d :: ds =>
    match rayGo pos p i d 130 (i + d) with
    | none => none
    | some m1 =>
      match raysFor pos p i ds with
      | none => none
      | some m2 => some (m1 ++ m2)

/-- The outer loop of Go `Position.Moves` (`for index, p := range pos.board`),
considering own pieces only; `idx` is the running board index. -/
def movesGo (pos : Position) : List Piece → Nat → Option (List Move)
  | [], _ => some []
  | p :: rest, idx =>
    if p.ours then
      match raysFor pos p (Int.ofNat idx) (directions p) with
      | none => none
      | some m1 =>
        match movesGo pos rest (idx + 1) with
        | none => none
        | some m2 => some (m1 ++ m2)
    else movesGo pos rest (idx + 1)

/-- Go `Position.Moves`: all pseudo-legal moves of the side to move. -/
def Position.moves (pos : Position) : Option (List Move) :=
  movesGo pos pos.board 0

/-- The piece-square tables of Go `Position.value` (`pst`): one
120-entry table per own piece letter; any other piece maps to the all-zero
table (the Go map's zero value). -/
def pst (p : Piece) : List Int :=
  if p = 'P' then
    [0, 0, 0, 0, 0, 0, 0, 0, 0, 0, 0, 0, 0, 0, 0, 0, 0, 0, 0, 0, 0, 0, 0, 0, 0, 0, 0, 0, 0, 0, 0, 178, 183, 186, 173, 202, 182, 185, 190, 0, 0, 107, 129, 121, 144, 140, 131, 144, 107, 0, 0, 83, 116, 98, 115, 114, 0, 115, 87, 0, 0, 74, 103, 110, 109, 106, 101, 0, 77, 0, 0, 78, 109, 105, 89, 90, 98, 103, 81, 0, 0, 69, 108, 93, 63, 64, 86, 103, 69, 0, 0, 0, 0, 0, 0, 0, 0, 0, 0, 0, 0, 0, 0, 0, 0, 0, 0, 0, 0, 0, 0, 0, 0, 0, 0, 0, 0, 0, 0, 0]
  else if p = 'N' then
    [0, 0, 0, 0, 0, 0, 0, 0, 0, 0, 0, 0, 0, 0, 0, 0, 0, 0, 0, 0, 0, 214, 227, 205, 205, 270, 225, 222, 210, 0, 0, 277, 274, 380, 244, 284, 342, 276, 266, 0, 0, 290, 347, 281, 354, 353, 307, 342, 278, 0, 0, 304, 304, 325, 317, 313, 321, 305, 297, 0, 0, 279, 285, 311, 301, 302, 315, 282, 0, 0, 0, 262, 290, 293, 302, 298, 295, 291, 266, 0, 0, 257, 265, 282, 0, 282, 0, 257, 260, 0, 0, 206, 257, 254, 256, 261, 245, 258, 211, 0, 0, 0, 0, 0, 0, 0, 0, 0, 0, 0, 0, 0, 0, 0, 0, 0, 0, 0, 0, 0]
  else if p = 'B' then
    [0, 0, 0, 0, 0, 0, 0, 0, 0, 0, 0, 0, 0, 0, 0, 0, 0, 0, 0, 0, 0, 261, 242, 238, 244, 297, 213, 283, 270, 0, 0, 309, 340, 355, 278, 281, 351, 322, 298, 0, 0, 311, 359, 288, 361, 372, 310, 348, 306, 0, 0, 345, 337, 340, 354, 346, 345, 335, 330, 0, 0, 333, 330, 337, 343, 337, 336, 0, 327, 0, 0, 334, 345, 344, 335, 328, 345, 340, 335, 0, 0, 339, 340, 331, 326, 327, 326, 340, 336, 0, 0, 313, 322, 305, 308, 306, 305, 310, 310, 0, 0, 0, 0, 0, 0, 0, 0, 0, 0, 0, 0, 0, 0, 0, 0, 0, 0, 0, 0, 0]
  else if p = 'R' then
    [0, 0, 0, 0, 0, 0, 0, 0, 0, 0, 0, 0, 0, 0, 0, 0, 0, 0, 0, 0, 0, 514, 508, 512, 483, 516, 512, 535, 529, 0, 0, 534, 508, 535, 546, 534, 541, 513, 539, 0, 0, 498, 514, 507, 512, 524, 506, 504, 494, 0, 0, 0, 484, 495, 492, 497, 475, 470, 473, 0, 0, 451, 444, 463, 458, 466, 450, 433, 449, 0, 0, 437, 451, 437, 454, 454, 444, 453, 433, 0, 0, 426, 441, 448, 453, 450, 436, 435, 426, 0, 0, 449, 455, 461, 484, 477, 461, 448, 447, 0, 0, 0, 0, 0, 0, 0, 0, 0, 0, 0, 0, 0, 0, 0, 0, 0, 0, 0, 0, 0]
  else if p = 'Q' then
    [0, 0, 0, 0, 0, 0, 0, 0, 0, 0, 0, 0, 0, 0, 0, 0, 0, 0, 0, 0, 0, 935, 930, 921, 825, 998, 953, 1017, 955, 0, 0, 943, 961, 989, 919, 949, 1005, 986, 953, 0, 0, 927, 972, 961, 989, 1001, 992, 972, 931, 0, 0, 930, 913, 951, 946, 954, 949, 916, 923, 0, 0, 915, 914, 927, 924, 928, 919, 909, 907, 0, 0, 899, 923, 916, 918, 913, 918, 913, 902, 0, 0, 893, 911, 0, 910, 914, 914, 908, 891, 0, 0, 890, 899, 898, 916, 898, 893, 895, 887, 0, 0, 0, 0, 0, 0, 0, 0, 0, 0, 0, 0, 0, 0, 0, 0, 0, 0, 0, 0, 0]
  else if p = 'K' then
    [0, 0, 0, 0, 0, 0, 0, 0, 0, 0, 0, 0, 0, 0, 0, 0, 0, 0, 0, 0, 0, 60004, 60054, 60047, 59901, 59901, 60060, 60083, 59938, 0, 0, 59968, 60010, 60055, 60056, 60056, 60055, 60010, 60003, 0, 0, 59938, 60012, 59943, 60044, 59933, 60028, 60037, 59969, 0, 0, 59945, 60050, 60011, 59996, 59981, 60013, 0, 59951, 0, 0, 59945, 59957, 59948, 59972, 59949, 59953, 59992, 59950, 0, 0, 59953, 59958, 59957, 59921, 59936, 59968, 59971, 59968, 0, 0, 59996, 60003, 59986, 59950, 59943, 59982, 60013, 60004, 0, 0, 60017, 60030, 59997, 59986, 60006, 59999, 60040, 60018, 0, 0, 0, 0, 0, 0, 0, 0, 0, 0, 0, 0, 0, 0, 0, 0, 0, 0, 0, 0, 0]
  else List.replicate 120 0

/-- Reading `pst[p][i]` in Go: the table is a `[120]int` array, so an
index outside `[0,120)` panics (`none`). -/
def pstGet (p : Piece) (i : Int) : Option Int :=
  if i < 0 then none else (pst p).get? i.toNat

/-- Go `abs`: the branchless two's-complement absolute value, which agrees
with mathematical absolute value on every non-overflowing input. -/
def abs (n : Int) : Int := if n < 0 then -n else n

/-- Go `MateValue = Piece('K').value() + 10*Piece('Q').value()`. -/
def MateValue : Int := Piece.value 'K' + 10 * Piece.value 'Q'

/-- Go `MaxTableSize`. -/
def MaxTableSize : Int := 10000000

/-- Go `Position.value`: the score delta of applying `m`, from
piece-square-table lookups (each lookup `none` = Go panic on an
out-of-range index). -/
def Position.value (pos : Position) (m : Move) : Option Int :=
  let i := m.from'
  let j := m.to'
  match Board.get pos.board i, Board.get pos.board j with
  | some p, some q =>
    match pstGet p j, pstGet p i with
    | some pj, some pi =>
      let score := pj - pi
      match (if q ≠ '.' ∧ q ≠ ' ' ∧ ¬ q.ours then pstGet q.Flip (Square.Flip j) else some 0) with
      | none => none
      | some capt =>
        let score := score + capt
        match (if abs (j - pos.kp) < 2 then pstGet 'K' (Square.Flip j) else some 0) with
        | none => none
        | some kpcorr =>
          let score := score + kpcorr
          match (if p = 'K' ∧ abs (i - j) = 2 then
                  match pstGet 'R' (Int.tdiv (i + j) 2), pstGet 'R' (if j < i then A1 else H1) with
                  | some rmid, some rcorner => some (rmid - rcorner)
                  | _, _ => none
                 else some 0) with
          | none => none
          | some castl =>
            let score := score + castl
            match (if p = 'P' ∧ A8 ≤ j ∧ j ≤ H8 then
                    match pstGet 'Q' j, pstGet 'P' j with
                    | some qj, some pj' => some (qj - pj')
                    | _, _ => none
                   else some 0) with
            | none => none
            | some promo =>
              let score := score + promo
              match (if p = 'P' ∧ j = pos.ep then pstGet 'P' (Square.Flip (j + S)) else some 0) with
              | none => none
              | some epcorr => some (score + epcorr)
    | _, _ => none
  | _, _ => none

/-- Checked board write: Go `b[i] = p` panics (`none`) when `i` is outside
`[0, len b)`. -/
def Board.setChk (b : Board) (i : Int) (p : Piece) : Option Board :=
  if 0 ≤ i ∧ i.toNat < b.length then some (List.set b i.toNat p) else none

/-- The body of Go `Position.Move` before the final `np.Flip()`: the
successor state still seen from the mover's side.  Every Go array access
is checked (`none` = panic). -/
def Position.movePre (pos : Position) (m : Move) : Option Position := do
  let i := m.from'
  let j := m.to'
  let p ← Board.get pos.board i
  let v ← pos.value m
  let b1 ← Board.setChk pos.board j p
  let b2 ← Board.setChk b1 i '.'
  let wc1 : Bool × Bool :=
    (if i = A1 then false else pos.wc.1, if i = H1 then false else pos.wc.2)
  let bc1 : Bool × Bool :=
    (if j = H8 then false else pos.bc.1, if j = A8 then false else pos.bc.2)
  let wc2 : Bool × Bool := if p = 'K' then (false, false) else wc1
  let b3 ← (if p = 'K' ∧ abs (j - i) = 2 then do
      let b' ← Board.setChk b2 (if j < i then H1 else A1) '.'
      Board.setChk b' (Int.tdiv (i + j) 2) 'R'
    else some b2)
  let b4 ← (if p = 'P' ∧ A8 ≤ j ∧ j ≤ H8 then Board.setChk b3 j 'Q' else some b3)
  let ep' : Int := if p = 'P' ∧ j - i = 2 * N then i + N else 0
  let b5 ← (if p = 'P' ∧ j = pos.ep then Board.setChk b4 (j + S) '.' else some b4)
  some { board := b5, score := pos.score + v, wc := wc2, bc := bc1, ep := ep', kp := 0 }

/-- Go `Position.Move`: apply the move, then flip the successor to the
next mover's perspective. -/
def Position.move (pos : Position) (m : Move) : Option Position :=
  (pos.movePre m).map Position.Flip

/-- Go `entry`: a transposition-table entry. -/
structure TEntry where
  depth : Int
  score : Int
  gamma : Int
  move : Move
deriving DecidableEq, Repr

/-- Go `Searcher`: the transposition table (a Go map, modelled as an
association list with map update semantics) and the node counter. -/
structure Searcher where
  tp : List (Position × TEntry)
  nodes : Int

/-- Go map read `e, ok := s.tp[pos]`. -/
def tpFind (tp : List (Position × TEntry)) (pos : Position) : Option TEntry :=
  (tp.find? (fun pe => decide (pe.1 = pos))).map (fun pe => pe.2)

/-- Go map write `s.tp[pos] = e`. -/
def tpStore (tp : List (Position × TEntry)) (pos : Position) (e : TEntry) :
    List (Position × TEntry) :=
  (pos, e) :: tp.filter (fun pe => decide (¬ pe.1 = pos))

/-- A searcher with an empty transposition table, as built by the Go
shells (`&Searcher{tp: map[Position]entry{}}`). -/
def emptySearcher : Searcher := ⟨[], 0⟩

/-- The move loop of Go `Searcher.bound`, threading the searcher state;
`recur` is the recursive `bound` call at one less fuel. -/
def moveLoop (pos : Position) (gamma depth : Int)
    (recur : Searcher → Position → Int → Int → Option (Int × Searcher)) :
    Searcher → List Move → Int → Move → Option (Int × Move × Searcher)
  | s, [], best, bm => some (best, bm, s)
  | s, m :: rest, best, bm =>
    match (if depth ≤ 0 then (pos.value m).map (fun v => decide (v < 150)) else some false) with
    | none => none
    | some stop =>
      if stop then some (best, bm, s)
      else
        match pos.move m with
        | none => none
        | some child =>
          match recur s child (1 - gamma) (depth - 1) with
          | none => none
          | some (cs, s') =>
            let score := -cs
            let best' := if score > best then score else best
            let bm' := if score > best then m else bm
            if score ≥ gamma then some (best', bm', s')
            else moveLoop pos gamma depth recur s' rest best' bm'

/-- The body of Go `Searcher.bound` after the transposition probe.
`eo` is the probe result (`ok`/`e`). -/
def boundMain (recur : Searcher → Position → Int → Int → Option (Int × Searcher))
    (s : Searcher) (pos : Position) (gamma depth : Int) (eo : Option TEntry) :
    Option (Int × Searcher) :=
  if abs pos.score ≥ MateValue then some (pos.score, s)
  else
    match (if depth > 0 then
            (recur s pos.Flip (1 - gamma) (depth - 3)).map (fun r => (-r.1, r.2))
           else some (pos.score, s)) with
    | none => none
    | some (nullScore, s2) =>
      if nullScore ≥ gamma then some (nullScore, s2)
      else
        match pos.moves with
        | none => none
        | some ms =>
          match moveLoop pos gamma depth recur s2 ms (-(3 * MateValue)) ⟨0, 0⟩ with
          | none => none
          | some (bestScore, bestMove, s3) =>
            if depth ≤ 0 ∧ bestScore < nullScore then some (nullScore, s3)
            else
              let bestScore' :=
                if depth > 0 ∧ bestScore ≤ -MateValue ∧ nullScore > -MateValue then 0
                else bestScore
              let doStore : Bool :=
                match eo with
                | none => true
                | some e => decide (depth ≥ e.depth ∧ bestScore' ≥ gamma)
              let s4 :=
                if doStore then
                  let tp' := tpStore s3.tp pos ⟨depth, bestScore', gamma, bestMove⟩
                  { s3 with tp := if (tp'.length : Int) > MaxTableSize then [] else tp' }
                else s3
              some (bestScore', s4)

/-- Go `Searcher.bound`, with a fuel bound on the recursion depth (`none`
on exhaustion; the Go function recurses without a structural bound). -/
def boundGo : Nat → Searcher → Position → Int → Int → Option (Int × Searcher)
  | 0, _, _, _, _ => none
  | fuel + 1, s, pos, gamma, depth =>
    let s1 : Searcher := { s with nodes := s.nodes + 1 }
    match tpFind s1.tp pos with
    | some e =>
      if e.depth ≥ depth ∧
          ((e.score < e.gamma ∧ e.score < gamma) ∨ (e.score ≥ e.gamma ∧ e.score ≥ gamma)) then
        some (e.score, s1)
      else boundMain (fun s' p' g' d' => boundGo fuel s' p' g' d') s1 pos gamma depth (some e)
    | none => boundMain (fun s' p' g' d' => boundGo fuel s' p' g' d') s1 pos gamma depth none

/-- The max-fold of the reference minimax over a move list; `step` is the
evaluation of a child at one less depth. -/
def minimaxFold (step : Position → Option Int) (pos : Position) :
    List Move → Int → Option Int
  | [], acc => some acc
  | m :: rest, acc =>
    match pos.move m with
    | none => none
    | some child =>
      match step child with
      | none => none
      | some v => minimaxFold step pos rest (max acc (-v))

/-- Modelled from the spec: the "true minimax score of S at depth d" of
claim C1 — the exact negamax value of the snapshot with the snapshot's
static score at the leaves, over the same move generator and move
application (no pruning, no cache, no quiescence). -/
def minimax (pos : Position) : Nat → Option Int
  | 0 => some pos.score
  | d + 1 =>
    match pos.moves with
    | none => none
    | some ms => minimaxFold (fun child => minimax child d) pos ms (-(3 * MateValue))


/-- The 14 valid piece codes: 12 playing pieces plus the empty and
off-board sentinels. -/
def pieceCodes : List Piece :=
  ['P', 'N', 'B', 'R', 'Q', 'K', 'p', 'n', 'b', 'r', 'q', 'k', '.', ' ']

/-- `true` iff FEN parsing failed. -/
def isError (r : Except String Board) : Bool :=
  match r with
  | .error _ => true
  | .ok _ => false

/-- A default (empty) position, used only to extract concrete successor
snapshots from `Option` results in witnesses. -/
def posDefault : Position := ⟨[], 0, (false, false), (false, false), 0, 0⟩

/-- The fixture position of the move-generation golden test: board parsed
from `r4rk1/ppp2ppp/2n2n2/5P2/2pb4/2N2N2/PPP2PPP/RQ2K2R`, all other
fields zero (Go `position{board: b}`). -/
def c2pos : Position :=
  ⟨(fen "r4rk1/ppp2ppp/2n2n2/5P2/2pb4/2N2N2/PPP2PPP/RQ2K2R").toOption.getD [],
   0, (false, false), (false, false), 0, 0⟩

/-- The golden reference list of the move-generation test, exactly as in
the Go test (28 sorted algebraic move strings). -/
def c2golden : List String :=
  ["a2a3",
   "a2a4",
   "b1c1",
   "b1d1",
   "b2b3",
   "b2b4",
   "c3a4",
   "c3b5",
   "c3d1",
   "c3d5",
   "c3e2",
   "c3e4",
   "e1d1",
   "e1d2",
   "e1e2",
   "e1f1",
   "f3d2",
   "f3d4",
   "f3e5",
   "f3g1",
   "f3g5",
   "f3h4",
   "g2g3",
   "g2g4",
   "h1f1",
   "h1g1",
   "h2h3",
   "h2h4"]

/-- Castling fixture: white king on e1 (square 95) with own rooks on
a1 (91) and h1 (98), both castling flags set. -/
def c3pos : Position :=
  ⟨(fen "r3k2r/8/8/8/8/8/8/R3K2R").toOption.getD [],
   0, (true, true), (true, true), 0, 0⟩

/-- The standard chess starting position (both sides full). -/
def startPos : Position :=
  ⟨(fen "rnbqkbnr/pppppppp/8/8/8/8/PPPPPPPP/RNBQKBNR").toOption.getD [],
   0, (true, true), (true, true), 0, 0⟩

/-- The successor of the starting position after the knight move g1f3
(square 96 to 76) — not a pawn double step. -/
def c6succ : Position := (startPos.move ⟨96, 76⟩).getD posDefault

/-- Promotion fixture: white pawn on e7 (square 35), kings on a1/h1
corners. -/
def c10pos : Position :=
  ⟨(fen "8/4P3/8/8/8/8/8/K6k").toOption.getD [],
   0, (false, false), (false, false), 0, 0⟩

/-- The pre-flip successor of the promotion move e7e8 (35 to 25). -/
def c10succ : Position := (c10pos.movePre ⟨35, 25⟩).getD posDefault

/-- Null-move-pruning counterexample snapshot: a lone own king on square
27 (a local maximum of the king piece-square table, so every king move
has a negative value delta), stored score 100. -/
def c1pos : Position :=
  ⟨(List.range 120).map (fun n =>
     if n = 27 then 'K'
     else if 2 ≤ n / 10 ∧ n / 10 ≤ 9 ∧ 1 ≤ n % 10 ∧ n % 10 ≤ 8 then '.'
     else ' '),
   100, (false, false), (false, false), 0, 0⟩

/-- A terminal snapshot: its stored score already reaches `MateValue`. -/
def c1TermPos : Position := ⟨[], MateValue, (false, false), (false, false), 0, 0⟩

/-- The non-sentinel cell contents: the 12 playing pieces and the empty
square. -/
def playCodes : List Piece :=
  ['P', 'N', 'B', 'R', 'Q', 'K', 'p', 'n', 'b', 'r', 'q', 'k', '.']

/-- Cell `n` of the 12x10 grid lies in the playable inner 8x8 region
(rows 2..9, columns 1..8). -/
def innerCell (n : Nat) : Prop :=
  2 ≤ n / 10 ∧ n / 10 ≤ 9 ∧ 1 ≤ n % 10 ∧ n % 10 ≤ 8

instance (n : Nat) : Decidable (innerCell n) := by
  unfold innerCell; infer_instance

/-- The structural board invariant of the Go program: a 120-cell grid
whose inner region holds playing pieces or empty squares and whose
padding holds the off-board sentinel. -/
def BoardInv (b : Board) : Prop :=
  b.length = 120 ∧ ∀ n : Nat, n < 120 →
    (innerCell n ∧ b.getD n ' ' ∈ playCodes) ∨ (¬ innerCell n ∧ b.getD n ' ' = ' ')

instance (b : Board) : Decidable (BoardInv b) := by
  unfold BoardInv; infer_instance

/-- King-passant fixture for C5: an own pawn on square 65 and a
king-passant coordinate 54 = 65 + N + W, with no en-passant target; the
board is otherwise empty. -/
def c5pos : Position :=
  ⟨(List.range 120).map (fun n =>
     if n = 65 then 'P'
     else if 2 ≤ n / 10 ∧ n / 10 ≤ 9 ∧ 1 ≤ n % 10 ∧ n % 10 ≤ 8 then '.'
     else ' '),
   0, (false, false), (false, false), 0, 54⟩

/-- The concrete move list generated from `c5pos`. -/
def c5ms : List Move := (c5pos.moves).getD []

/-- Byte-lexicographic order on character lists, as Go compares strings
(all move strings here are ASCII). -/
def charListLe : List Char → List Char → Bool
  | [], _ => true
  | _ :: _, [] => false
  | a :: as, b :: bs =>
    if a.toNat < b.toNat then true
    else if b.toNat < a.toNat then false
    else charListLe as bs

/-- Go string comparison `a <= b`. -/
def strLe (a b : String) : Bool := charListLe a.toList b.toList

/-- Insertion by lexicographic string order (the Go test sorts the move
strings with `sort.Strings`; any comparison sort yields the same sorted
list). -/
def insertStr (x : String) : List String → List String
  | [] => [x]
  | y :: ys => if strLe x y then x :: y :: ys else y :: insertStr x ys

/-- Insertion sort over strings. -/
def sortStrs : List String → List String
  | [] => []
  | x :: xs => insertStr x (sortStrs xs)


/-
Helper lemmas shared by the claim theorems.
-/

lemma piece_flip_flip {p : Piece} (hp : p ∈ pieceCodes) :
    Piece.Flip (Piece.Flip p) = p := by
  fin_cases hp <;> rfl

lemma board_flip_flip {B : Board} (h : ∀ p ∈ B, p ∈ pieceCodes) :
    Board.Flip (Board.Flip B) = B := by
  simp only [Board.Flip, List.map_reverse, List.reverse_reverse, List.map_map]
  exact (List.map_congr_left fun a ha => piece_flip_flip (h a ha)).trans B.map_id

lemma square_flip_flip (c : Int) : Square.Flip (Square.Flip c) = c := by
  unfold Square.Flip; omega

lemma setChk_get_self {b b' : Board} {i : Int} {p : Piece}
    (h : Board.setChk b i p = some b') : Board.get b' i = some p := by
  unfold Board.setChk at h
  split at h
  case isTrue hc =>
    obtain ⟨hc1, hc2⟩ := hc
    injection h with h
    subst h
    have h0 : ¬ i < 0 := by omega
    unfold Board.get
    rw [if_neg h0]
    exact List.get?_set_eq_of_lt p hc2
  case isFalse hc => exact absurd h (by simp)

lemma setChk_get_ne {b b' : Board} {i k : Int} {p : Piece}
    (h : Board.setChk b i p = some b') (hk : k ≠ i) :
    Board.get b' k = Board.get b k := by
  unfold Board.setChk at h
  split at h
  case isTrue hc =>
    obtain ⟨hc1, hc2⟩ := hc
    injection h with h
    subst h
    unfold Board.get
    by_cases hk0 : k < 0
    · rw [if_pos hk0, if_pos hk0]
    · rw [if_neg hk0, if_neg hk0]
      have hne : i.toNat ≠ k.toNat := by omega
      exact List.get?_set_ne p b hne
  case isFalse hc => exact absurd h (by simp)


/-- C4: Flip is an involution: on every board whose cells are among the 14
valid piece codes, flipping twice is the identity, and on every coordinate
in `[0,120)`, `flip (flip c) = c`. -/
theorem c4_flip_involution :
    (∀ B : Board, (∀ p ∈ B, p ∈ pieceCodes) → Board.Flip (Board.Flip B) = B) ∧
    (∀ c : Int, 0 ≤ c → c < 120 → Square.Flip (Square.Flip c) = c) :=
  ⟨fun _ h => board_flip_flip h, fun c _ _ => square_flip_flip c⟩

/-- Witness for C4 at the starting board and coordinate 37. -/
theorem c4_flip_involution_witness :
    Board.Flip (Board.Flip startPos.board) = startPos.board ∧
    Square.Flip (Square.Flip 37) = 37 :=
  ⟨c4_flip_involution.1 startPos.board (by decide),
   c4_flip_involution.2 37 (by decide) (by decide)⟩

/-- C9: snapshot flip is an involution: flipping a position twice restores
every field (board, score, both castling pairs, en-passant and
king-passant coordinates) whenever the board's cells are valid piece
codes. -/
theorem c9_position_flip_involution (pos : Position)
    (h : ∀ p ∈ pos.board, p ∈ pieceCodes) :
    pos.Flip.Flip = pos := by
  cases pos with
  | mk board score wc bc ep kp =>
    simp only [Position.Flip, Position.mk.injEq, neg_neg, square_flip_flip, and_true,
      true_and, and_self, board_flip_flip h]

/-- Witness for C9 at the starting position. -/
theorem c9_position_flip_involution_witness : startPos.Flip.Flip = startPos :=
  c9_position_flip_involution startPos (by decide)

/-- C7: parsing the well-formed FEN start string renders back exactly, and
each malformed test input is rejected with an error. -/
theorem c7_fen_roundtrip_and_errors :
    ((fen "rnbqkbnr/pppppppp/8/8/8/8/PPPPPPPP/RNBQKBNR w KQkq - 0 1").toOption).map Board.render =
      some "\nrnbqkbnr\npppppppp\n........\n........\n........\n........\nPPPPPPPP\nRNBQKBNR\n" ∧
    isError (fen "") = true ∧
    isError (fen "hello") = true ∧
    isError (fen "8/8/8/8/8/8/8/8/8") = true ∧
    isError (fen "8/8/8/8/8/8/8/9") = true ∧
    isError (fen "8/8/8/8/8/8/8") = true ∧
    isError (fen "8/1p1/8/8/8/8/8/8") = true ∧
    isError (fen "8/1x7/8/8/8/8/8/8") = true ∧
    isError (fen "8/1 7/8/8/8/8/8/8") = true ∧
    isError (fen "8/1.7/8/8/8/8/8/8") = true := by
  decide

/-- C2 counterexample: the golden position generates 28 moves, not 30. -/
theorem c2_move_count_counterexample :
    (c2pos.moves).map List.length = some 28 ∧ (28 : Nat) ≠ 30 :=
  ⟨by decide, by decide⟩

/-- C2 (amended): the golden position generates exactly the 28 moves of
the reference list (sorted algebraic notation). -/
theorem c2_golden_moves :
    (c2pos.moves).map (fun ms => sortStrs (ms.map Move.str)) = some c2golden := by
  decide

/-- C3: at the castling fixture, the kingside castle e1g1 (95 to 97)
empties the queenside corner A1 and leaves the rook on H1 (and dually for
the queenside castle e1c1), contradicting the specified behavior of
emptying the castled rook's own home corner; the castling flags are
cleared as specified. -/
theorem c3_castling_rook_corner :
    (c3pos.movePre ⟨95, 97⟩).map (fun np => Board.get np.board A1) = some (some '.') ∧
    (c3pos.movePre ⟨95, 97⟩).map (fun np => Board.get np.board 96) = some (some 'R') ∧
    (c3pos.movePre ⟨95, 97⟩).map (fun np => Board.get np.board 97) = some (some 'K') ∧
    (c3pos.movePre ⟨95, 97⟩).map (fun np => Board.get np.board H1) = some (some 'R') ∧
    (c3pos.movePre ⟨95, 97⟩).map (fun np => np.wc) = some (false, false) ∧
    (c3pos.movePre ⟨95, 93⟩).map (fun np => Board.get np.board A1) = some (some 'R') ∧
    (c3pos.movePre ⟨95, 93⟩).map (fun np => Board.get np.board 94) = some (some 'R') ∧
    (c3pos.movePre ⟨95, 93⟩).map (fun np => Board.get np.board 93) = some (some 'K') ∧
    (c3pos.movePre ⟨95, 93⟩).map (fun np => Board.get np.board H1) = some (some '.') := by
  decide

/-- C1 counterexample: at `c1pos` (every move strictly worsens the score)
with threshold gamma = 100 and depth 1, the true depth-1 minimax score is
77 < gamma, yet `bound` returns 100, which is not < gamma — the null-move
pruning step returns the static score without searching any move. -/
theorem c1_bound_contract_counterexample :
    minimax c1pos 1 = some 77 ∧
    (boundGo 5 emptySearcher c1pos 100 1).map Prod.fst = some 100 ∧
    (77 : Int) < 100 ∧ ¬ ((100 : Int) < 100) := by
  decide

/-- C1 (amended): `bound` is exact at terminal snapshots: whenever the
stored score has reached `MateValue` in absolute value, `bound` (with the
empty transposition table) returns exactly that score, for every gamma
and depth. -/
theorem c1_bound_terminal_exact (pos : Position) (gamma depth : Int) (fuel : Nat)
    (h : abs pos.score ≥ MateValue) :
    (boundGo (fuel + 1) emptySearcher pos gamma depth).map Prod.fst = some pos.score := by
  simp only [boundGo, emptySearcher, tpFind, List.find?_nil, Option.map_none']
  unfold boundMain
  rw [if_pos h]
  rfl

/-- Witness for C1's amended theorem at a terminal snapshot. -/
theorem c1_bound_terminal_exact_witness :
    (boundGo 1 emptySearcher c1TermPos 5 3).map Prod.fst = some MateValue :=
  c1_bound_terminal_exact c1TermPos 5 3 0 (by decide)

/-- C6 counterexample: after the knight move g1f3 from the starting
position — not a pawn double step — the successor's en-passant coordinate
is 119 (the flip of the absent-target value 0), not 0. -/
theorem c6_ep_counterexample :
    (startPos.move ⟨96, 76⟩).map Position.ep = some 119 ∧ (119 : Int) ≠ 0 :=
  ⟨by decide, by decide⟩

/-- C6 (amended): for every successfully applied move that is not a pawn
double step, the successor snapshot's en-passant coordinate is 119 — the
final flip maps the internal absent-target value 0 to 119 - 0. -/
theorem c6_ep_reset (pos : Position) (m : Move) (np : Position)
    (h : pos.move m = some np)
    (hnd : ¬ (Board.get pos.board m.from' = some 'P' ∧ m.to' - m.from' = 2 * N)) :
    np.ep = 119 := by
  unfold Position.move at h
  rw [Option.map_eq_some'] at h
  obtain ⟨npp, hpre, h⟩ := h
  simp only [Position.movePre, Option.bind_eq_bind', Option.bind_eq_some, Option.some.injEq] at hpre
  obtain ⟨p, hp, v, hv, b1, hb1, b2, hb2, b3, hb3, b4, hb4, b5, hb5, hrec⟩ := hpre
  have hep : npp.ep = 0 := by
    rw [← hrec]
    show (if p = 'P' ∧ m.to' - m.from' = 2 * N then m.from' + N else 0) = 0
    rw [if_neg]
    rintro ⟨hpP, hdd⟩
    exact hnd ⟨by rw [hp, hpP], hdd⟩
  rw [← h]
  show Square.Flip npp.ep = 119
  rw [hep]
  rfl

/-- Witness for C6's amended theorem at the knight move g1f3. -/
theorem c6_ep_reset_witness : c6succ.ep = 119 :=
  c6_ep_reset startPos ⟨96, 76⟩ c6succ (by decide) (by decide)

/-- C10: whenever a pawn move lands on the last rank, the pre-flip
successor board holds a queen on the destination square (the move
descriptor has no promotion choice). -/
theorem c10_promotion_queen (pos : Position) (m : Move) (np : Position)
    (h : pos.movePre m = some np)
    (hP : Board.get pos.board m.from' = some 'P')
    (h1 : A8 ≤ m.to') (h2 : m.to' ≤ H8) :
    Board.get np.board m.to' = some 'Q' := by
  simp only [Position.movePre, Option.bind_eq_bind', Option.bind_eq_some, Option.some.injEq] at h
  obtain ⟨p, hp, v, hv, b1, hb1, b2, hb2, b3, hb3, b4, hb4, b5, hb5, hrec⟩ := h
  have hpP : p = 'P' := Option.some.inj (hp.symm.trans hP)
  subst hpP
  rw [if_pos ⟨rfl, h1, h2⟩] at hb4
  have hq : Board.get b4 m.to' = some 'Q' := setChk_get_self hb4
  have hb5' : Board.get b5 m.to' = some 'Q' := by
    by_cases hcase : ('P' : Piece) = 'P' ∧ m.to' = pos.ep
    · rw [if_pos hcase] at hb5
      have hne : m.to' ≠ m.to' + S := by unfold S; omega
      rw [setChk_get_ne hb5 hne]
      exact hq
    · rw [if_neg hcase] at hb5
      injection hb5 with hb5
      rw [← hb5]
      exact hq
  rw [← hrec]
  exact hb5'

/-- Witness for C10 at the promotion move e7e8. -/
theorem c10_promotion_queen_witness : Board.get c10succ.board 25 = some 'Q' :=
  c10_promotion_queen c10pos ⟨35, 25⟩ c10succ (by decide) (by decide) (by decide) (by decide)


/-
Invariant lemmas for the padding/totality claim.
-/

lemma inv_get_some {b : Board} (hinv : BoardInv b) {j : Int} (h0 : 0 ≤ j) (h1 : j < 120) :
    ∃ q, Board.get b j = some q := by
  obtain ⟨hlen, _⟩ := hinv
  unfold Board.get
  rw [if_neg (by omega)]
  cases hq : b.get? j.toNat with
  | none => exact absurd (List.get?_eq_none.mp hq) (by omega)
  | some q => exact ⟨q, rfl⟩

lemma inv_inner_of_ne_space {b : Board} (hinv : BoardInv b) {j : Int} (h0 : 0 ≤ j)
    (h1 : j < 120) {q : Piece} (hq : Board.get b j = some q) (hne : q ≠ ' ') :
    21 ≤ j ∧ j ≤ 98 := by
  obtain ⟨hlen, hcell⟩ := hinv
  have hj : j.toNat < 120 := by omega
  unfold Board.get at hq
  rw [if_neg (by omega)] at hq
  have hgd : b.getD j.toNat ' ' = q := by
    rw [List.getD_eq_getD_get?, hq]
    rfl
  rcases hcell j.toNat hj with ⟨hin, _⟩ | ⟨_, hsp⟩
  · obtain ⟨ha, hb', hc, hd'⟩ := hin
    omega
  · rw [hgd] at hsp
    exact absurd hsp hne

lemma ours_ne_sentinel {p : Piece} (h : p.ours = true) : p ≠ ' ' ∧ p ≠ '.' := by
  constructor <;> rintro rfl <;> exact absurd h (by decide)

lemma mem_directions {p : Piece} {d : Int} (hd : d ∈ directions p) :
    d ≠ 0 ∧ -21 ≤ d ∧ d ≤ 21 := by
  unfold directions at hd
  split_ifs at hd <;>
    first
      | exact absurd hd (List.not_mem_nil d)
      | (fin_cases hd <;> decide)

lemma castleMoves_isSome {pos : Position} (hinv : BoardInv pos.board) {i j : Int}
    (hj : 21 ≤ j) (hj' : j ≤ 98) : (castleMoves pos i j).isSome := by
  unfold castleMoves
  by_cases hA : i = A1
  · obtain ⟨qe, hqe⟩ := inv_get_some hinv (j := j + E) (by unfold E; omega) (by unfold E; omega)
    rw [if_pos hA, hqe]
    by_cases hH : i = H1
    · obtain ⟨qw, hqw⟩ := inv_get_some hinv (j := j + W) (by unfold W; omega) (by unfold W; omega)
      rw [if_pos hH, hqw]
      simp
    · rw [if_neg hH]
      simp
  · rw [if_neg hA]
    by_cases hH : i = H1
    · obtain ⟨qw, hqw⟩ := inv_get_some hinv (j := j + W) (by unfold W; omega) (by unfold W; omega)
      rw [if_pos hH, hqw]
      simp
    · rw [if_neg hH]
      simp

lemma rayGo_isSome {pos : Position} (hinv : BoardInv pos.board)
    {p : Piece} {i d : Int} (hi0 : 0 ≤ i) (hi1 : i < 120)
    (hd0 : d ≠ 0) (hdl : -21 ≤ d) (hdr : d ≤ 21) :
    ∀ (fuel : Nat) (j : Int), 0 ≤ j → j < 120 →
      (0 < d → (120 - j).toNat ≤ fuel) → (d < 0 → (j + 1).toNat ≤ fuel) →
      (rayGo pos p i d fuel j).isSome := by
  intro fuel
  induction fuel with
  | zero =>
    intro j hj0 hj1 hf1 hf2
    exfalso
    rcases lt_trichotomy d 0 with h | h | h
    · have := hf2 h; omega
    · exact hd0 h
    · have := hf1 h; omega
  | succ fuel ih =>
    intro j hj0 hj1 hf1 hf2
    obtain ⟨q, hq⟩ := inv_get_some hinv hj0 hj1
    have hqn : ∃ qn, (if p = 'P' ∧ d = N + N ∧ ¬ i < A1 + N
        then Board.get pos.board (i + N) else some '-') = some qn := by
      by_cases hc : p = 'P' ∧ d = N + N ∧ ¬ i < A1 + N
      · rw [if_pos hc]
        exact inv_get_some hinv
          (by have h2 := hc.2.2; unfold N A1 at *; omega)
          (by unfold N at *; omega)
      · rw [if_neg hc]
        exact ⟨'-', rfl⟩
    obtain ⟨qn, hqn⟩ := hqn
    unfold rayGo
    rw [hq]
    split
    next heq1 => exact absurd heq1 (by simp)
    next qw heq1 =>
      injection heq1 with heq1
      subst heq1
      split
      next => simp
      next hbr1 =>
        have hsp : q ≠ ' ' := fun h => hbr1 (Or.inl h)
        obtain ⟨hj21, hj98⟩ := inv_inner_of_ne_space hinv hj0 hj1 hq hsp
        split
        next => simp
        next hbr2 =>
          rw [hqn]
          split
          next heq2 => exact absurd heq2 (by simp)
          next qnw heq2 =>
            injection heq2 with heq2
            subst heq2
            split
            next => simp
            next hbr3 =>
              split
              next => simp
              next hbr4 =>
                split
                next => simp
                next hbr5 =>
                  have hcs := castleMoves_isSome (i := i) hinv hj21 hj98
                  obtain ⟨cm, hcm⟩ := Option.isSome_iff_exists.mp hcs
                  rw [hcm]
                  have hrec := ih (j + d) (by omega) (by omega)
                    (fun hdp => by have := hf1 hdp; omega)
                    (fun hdn => by have := hf2 hdn; omega)
                  obtain ⟨ms, hms⟩ := Option.isSome_iff_exists.mp hrec
                  rw [hms]
                  simp

lemma raysFor_isSome {pos : Position} (hinv : BoardInv pos.board)
    {p : Piece} {i : Int} (hi21 : 21 ≤ i) (hi98 : i ≤ 98) :
    ∀ ds : List Int, (∀ d ∈ ds, d ≠ 0 ∧ -21 ≤ d ∧ d ≤ 21) →
      (raysFor pos p i ds).isSome := by
  intro ds
  induction ds with
  | nil => intro _; simp [raysFor]
  | cons d ds ih =>
    intro hds
    obtain ⟨hd0, hdl, hdr⟩ := hds d (List.mem_cons_self d ds)
    have hray := rayGo_isSome hinv (p := p) (by omega : (0:Int) ≤ i) (by omega) hd0 hdl hdr
      130 (i + d) (by omega) (by omega) (by intro h; omega) (by intro h; omega)
    obtain ⟨m1, hm1⟩ := Option.isSome_iff_exists.mp hray
    have hrest := ih (fun d' hd' => hds d' (List.mem_cons_of_mem d hd'))
    obtain ⟨m2, hm2⟩ := Option.isSome_iff_exists.mp hrest
    unfold raysFor
    rw [hm1, hm2]
    simp

lemma movesGo_isSome {pos : Position} (hinv : BoardInv pos.board) :
    ∀ (l : List Piece) (k : Nat), (∀ n : Nat, l.get? n = pos.board.get? (k + n)) →
      (movesGo pos l k).isSome := by
  intro l
  induction l with
  | nil =>
    intro k _
    simp [movesGo]
  | cons p rest ih =>
    intro k hl
    have hp : pos.board.get? k = some p := by
      have h0 := hl 0
      simpa using h0.symm
    have hk120 : k < 120 := by
      by_contra hge
      have hnone : pos.board.get? k = none := List.get?_eq_none.mpr (by rw [hinv.1]; omega)
      rw [hnone] at hp
      cases hp
    have hrest : ∀ n : Nat, rest.get? n = pos.board.get? (k + 1 + n) := by
      intro n
      have hn := hl (n + 1)
      rw [List.get?_cons_succ] at hn
      rw [hn]
      congr 1
      omega
    unfold movesGo
    have hofk : Int.ofNat k = (k : Int) := rfl
    rw [hofk]
    by_cases hours : p.ours = true
    · rw [if_pos hours]
      have hbg : Board.get pos.board (k : Int) = some p := by
        unfold Board.get
        rw [if_neg (by omega)]
        simpa using hp
      obtain ⟨hne1, _⟩ := ours_ne_sentinel hours
      obtain ⟨h21, h98⟩ := inv_inner_of_ne_space hinv (by omega) (by omega) hbg hne1
      have hrays := raysFor_isSome hinv (p := p) h21 h98 (directions p)
        (fun d hd => mem_directions hd)
      obtain ⟨m1, hm1⟩ := Option.isSome_iff_exists.mp hrays
      rw [hm1]
      have hmrest := ih (k + 1) hrest
      obtain ⟨m2, hm2⟩ := Option.isSome_iff_exists.mp hmrest
      rw [hm2]
      simp
    · rw [if_neg hours]
      exact ih (k + 1) hrest

/-- C8: on every snapshot whose board satisfies the structural invariant
(120 cells, playing pieces or empty squares inside the 8x8 region,
off-board sentinels everywhere else), move generation succeeds: no board
access during `moves` is out of range, so the out-of-bounds (Go panic)
branch is unreachable. -/
theorem c8_generation_total (pos : Position) (hinv : BoardInv pos.board) :
    (pos.moves).isSome := by
  unfold Position.moves
  exact movesGo_isSome hinv pos.board 0 (fun n => by rw [Nat.zero_add])

/-- Witness for C8 at the starting position. -/
theorem c8_generation_total_witness : (startPos.moves).isSome :=
  c8_generation_total startPos (by decide)


/-
Membership characterization of the move generator, for the pawn-diagonal
claim.
-/

lemma castleMoves_from {pos : Position} {i j : Int} {cm : List Move}
    (h : castleMoves pos i j = some cm) :
    ∀ mv ∈ cm, Board.get pos.board mv.from' = some 'K' := by
  unfold castleMoves at h
  split at h
  next heqe => exact absurd h (by simp)
  next qe heqe =>
    split at h
    next heqw => exact absurd h (by simp)
    next qw heqw =>
      injection h with h
      subst h
      intro mv hmv
      rcases List.mem_append.mp hmv with hm | hm
      · by_cases hc : i = A1 ∧ qe = 'K' ∧ pos.wc.1 = true
        · rw [if_pos hc] at hm
          rcases List.mem_singleton.mp hm with rfl
          rw [if_pos hc.1] at heqe
          show Board.get pos.board (j + E) = some 'K'
          rw [heqe, hc.2.1]
        · rw [if_neg hc] at hm
          exact absurd hm (List.not_mem_nil mv)
      · by_cases hc : i = H1 ∧ qw = 'K' ∧ pos.wc.2 = true
        · rw [if_pos hc] at hm
          rcases List.mem_singleton.mp hm with rfl
          rw [if_pos hc.1] at heqw
          show Board.get pos.board (j + W) = some 'K'
          rw [heqw, hc.2.1]
        · rw [if_neg hc] at hm
          exact absurd hm (List.not_mem_nil mv)

lemma rayGo_from {pos : Position} {p : Piece} {i d : Int} :
    ∀ {fuel : Nat} {j : Int} {r : List Move}, rayGo pos p i d fuel j = some r →
      ∀ mv ∈ r, mv.from' = i ∨ Board.get pos.board mv.from' = some 'K' := by
  intro fuel
  induction fuel with
  | zero =>
    intro j r h
    exact absurd h (by simp [rayGo])
  | succ fuel ih =>
    intro j r h
    unfold rayGo at h
    split at h
    next => exact absurd h (by simp)
    next q hq =>
      split at h
      next =>
        injection h with h
        subst h
        intro mv hmv
        exact absurd hmv (List.not_mem_nil mv)
      next =>
        split at h
        next =>
          injection h with h
          subst h
          intro mv hmv
          exact absurd hmv (List.not_mem_nil mv)
        next =>
          split at h
          next => exact absurd h (by simp)
          next qn hqn =>
            split at h
            next =>
              injection h with h
              subst h
              intro mv hmv
              exact absurd hmv (List.not_mem_nil mv)
            next =>
              split at h
              next =>
                injection h with h
                subst h
                intro mv hmv
                exact absurd hmv (List.not_mem_nil mv)
              next =>
                split at h
                next =>
                  injection h with h
                  subst h
                  intro mv hmv
                  rcases List.mem_singleton.mp hmv with rfl
                  exact Or.inl rfl
                next =>
                  split at h
                  next => exact absurd h (by simp)
                  next cm hcm =>
                    split at h
                    next => exact absurd h (by simp)
                    next ms hms =>
                      injection h with h
                      subst h
                      intro mv hmv
                      rcases List.mem_cons.mp hmv with rfl | hmv'
                      · exact Or.inl rfl
                      · rcases List.mem_append.mp hmv' with hmc | hmm
                        · exact Or.inr (castleMoves_from hcm mv hmc)
                        · exact ih hms mv hmm

lemma rayGo_pawn {pos : Position} {i d : Int} :
    ∀ {fuel : Nat} {j : Int} {r : List Move}, rayGo pos 'P' i d fuel j = some r →
      ∀ mv ∈ r, mv = ⟨i, j⟩ := by
  intro fuel
  cases fuel with
  | zero =>
    intro j r h
    exact absurd h (by simp [rayGo])
  | succ fuel =>
    intro j r h
    unfold rayGo at h
    split at h
    next => exact absurd h (by simp)
    next q hq =>
      split at h
      next =>
        injection h with h
        subst h
        intro mv hmv
        exact absurd hmv (List.not_mem_nil mv)
      next =>
        split at h
        next =>
          injection h with h
          subst h
          intro mv hmv
          exact absurd hmv (List.not_mem_nil mv)
        next =>
          split at h
          next => exact absurd h (by simp)
          next qn hqn =>
            split at h
            next =>
              injection h with h
              subst h
              intro mv hmv
              exact absurd hmv (List.not_mem_nil mv)
            next =>
              split at h
              next =>
                injection h with h
                subst h
                intro mv hmv
                exact absurd hmv (List.not_mem_nil mv)
              next =>
                split at h
                next =>
                  injection h with h
                  subst h
                  intro mv hmv
                  exact List.mem_singleton.mp hmv
                next hcrawl =>
                  exact absurd (Or.inl rfl) hcrawl

lemma rayGo_pawn_diag {pos : Position} {i d : Int} {fuel : Nat} {j : Int} {r : List Move}
    (hd : d = N + W ∨ d = N + E) (hq : Board.get pos.board j = some '.')
    (h : rayGo pos 'P' i d (fuel + 1) j = some r) :
    (Move.mk i j ∈ r ↔
      (j = pos.ep ∨ j = pos.kp ∨ j = pos.kp - 1 ∨ j = pos.kp + 1)) := by
  have hdnn : d ≠ N + N := by rcases hd with rfl | rfl <;> decide
  unfold rayGo at h
  split at h
  next heq =>
    rw [hq] at heq
    exact absurd heq (by simp)
  next q heq =>
    rw [hq] at heq
    injection heq with heq
    subst heq
    split at h
    next hbr1 => exact absurd hbr1 (by decide)
    next hbr1 =>
      split at h
      next hbr2 => exact absurd rfl hbr2.2.2
      next hbr2 =>
        split at h
        next heq3 =>
          rw [if_neg (fun hc => hdnn hc.2.1)] at heq3
          exact absurd heq3 (by simp)
        next qn heq3 =>
          split at h
          next hbr3 => exact absurd hbr3.2.1 hdnn
          next hbr3 =>
            split at h
            next hbr4 =>
              injection h with h
              subst h
              obtain ⟨-, -, -, hne1, hne2, hne3, hne4⟩ := hbr4
              simp only [List.not_mem_nil, false_iff]
              rintro (hc | hc | hc | hc)
              exacts [hne1 hc, hne2 hc, hne3 hc, hne4 hc]
            next hbr4 =>
              split at h
              next =>
                injection h with h
                subst h
                refine ⟨fun _ => ?_, fun _ => List.mem_singleton.mpr rfl⟩
                by_contra hnc
                push_neg at hnc
                exact hbr4 ⟨rfl, hd, rfl, hnc.1, hnc.2.1, hnc.2.2.1, hnc.2.2.2⟩
              next hbr5 => exact absurd (Or.inl rfl) hbr5


lemma rayGo_pawn_diag_occupied {pos : Position} {i d : Int} {fuel : Nat} {j : Int}
    {r : List Move} {q : Piece}
    (hq : Board.get pos.board j = some q) (hqd : q ≠ '.')
    (h : rayGo pos 'P' i d (fuel + 1) j = some r) (hmem : Move.mk i j ∈ r) :
    q ≠ ' ' ∧ q.ours = false := by
  unfold rayGo at h
  split at h
  next heq =>
    rw [hq] at heq
    exact absurd heq (by simp)
  next q0 heq =>
    rw [hq] at heq
    injection heq with heq
    subst heq
    split at h
    next hbr1 =>
      injection h with h
      subst h
      exact absurd hmem (List.not_mem_nil _)
    next hbr1 =>
      refine ⟨fun hsp => hbr1 (Or.inl hsp), ?_⟩
      by_cases ho : q.ours = true
      · exact absurd (Or.inr ⟨hqd, ho⟩) hbr1
      · simpa using ho

lemma raysFor_mem {pos : Position} {p : Piece} {i : Int} :
    ∀ {ds : List Int} {rs : List Move}, raysFor pos p i ds = some rs →
      ∀ mv : Move, (mv ∈ rs ↔
        ∃ d ∈ ds, ∃ r, rayGo pos p i d 130 (i + d) = some r ∧ mv ∈ r) := by
  intro ds
  induction ds with
  | nil =>
    intro rs h mv
    unfold raysFor at h
    injection h with h
    subst h
    simp
  | cons d ds ih =>
    intro rs h mv
    unfold raysFor at h
    split at h
    next => exact absurd h (by simp)
    next m1 hm1 =>
      split at h
      next => exact absurd h (by simp)
      next m2 hm2 =>
        injection h with h
        subst h
        constructor
        · intro hmem
          rcases List.mem_append.mp hmem with hm | hm
          · exact ⟨d, List.mem_cons_self d ds, m1, hm1, hm⟩
          · obtain ⟨d', hd', r, hr, hmv⟩ := (ih hm2 mv).mp hm
            exact ⟨d', List.mem_cons_of_mem d hd', r, hr, hmv⟩
        · rintro ⟨d', hd', r, hr, hmv⟩
          rcases List.mem_cons.mp hd' with rfl | hd''
          · rw [hm1] at hr
            injection hr with hr
            subst hr
            exact List.mem_append.mpr (Or.inl hmv)
          · exact List.mem_append.mpr (Or.inr ((ih hm2 mv).mpr ⟨d', hd'', r, hr, hmv⟩))

lemma raysFor_sub {pos : Position} {p : Piece} {i : Int} :
    ∀ {ds : List Int} {rs : List Move}, raysFor pos p i ds = some rs →
      ∀ {d : Int}, d ∈ ds → ∃ r, rayGo pos p i d 130 (i + d) = some r := by
  intro ds
  induction ds with
  | nil =>
    intro rs _ d hd
    exact absurd hd (List.not_mem_nil d)
  | cons d0 ds ih =>
    intro rs h d hd
    unfold raysFor at h
    split at h
    next => exact absurd h (by simp)
    next m1 hm1 =>
      split at h
      next => exact absurd h (by simp)
      next m2 hm2 =>
        rcases List.mem_cons.mp hd with rfl | hd'
        · exact ⟨m1, hm1⟩
        · exact ih hm2 hd'

lemma movesGo_mem {pos : Position} :
    ∀ {l : List Piece} {k : Nat} {ms : List Move}, movesGo pos l k = some ms →
      ∀ mv : Move, (mv ∈ ms ↔
        ∃ (n : Nat) (p : Piece), l.get? n = some p ∧ p.ours = true ∧
          ∃ rs, raysFor pos p (Int.ofNat (k + n)) (directions p) = some rs ∧ mv ∈ rs) := by
  intro l
  induction l with
  | nil =>
    intro k ms h mv
    unfold movesGo at h
    injection h with h
    subst h
    simp
  | cons p rest ih =>
    intro k ms h mv
    unfold movesGo at h
    by_cases hours : p.ours = true
    · rw [if_pos hours] at h
      split at h
      next => exact absurd h (by simp)
      next m1 hm1 =>
        split at h
        next => exact absurd h (by simp)
        next m2 hm2 =>
          injection h with h
          subst h
          have hk0 : Int.ofNat (k + 0) = Int.ofNat k := by rw [Nat.add_zero]
          constructor
          · intro hmem
            rcases List.mem_append.mp hmem with hm | hm
            · refine ⟨0, p, rfl, hours, m1, ?_, hm⟩
              rw [hk0]
              exact hm1
            · obtain ⟨n, p', hget, hou, rs, hrs, hmv⟩ := (ih hm2 mv).mp hm
              refine ⟨n + 1, p', by simpa using hget, hou, rs, ?_, hmv⟩
              have : k + 1 + n = k + (n + 1) := by omega
              rw [← this]
              exact hrs
          · rintro ⟨n, p', hget, hou, rs, hrs, hmv⟩
            cases n with
            | zero =>
              have hpp : p' = p := by simpa using hget.symm
              subst hpp
              rw [hk0, hm1] at hrs
              injection hrs with hrs
              subst hrs
              exact List.mem_append.mpr (Or.inl hmv)
            | succ n =>
              refine List.mem_append.mpr (Or.inr ((ih hm2 mv).mpr ⟨n, p', by simpa using hget, hou, rs, ?_, hmv⟩))
              have : k + (n + 1) = k + 1 + n := by omega
              rw [← this]
              exact hrs
    · rw [if_neg hours] at h
      rw [ih h mv]
      constructor
      · rintro ⟨n, p', hget, hou, rs, hrs, hmv⟩
        refine ⟨n + 1, p', by simpa using hget, hou, rs, ?_, hmv⟩
        have : k + 1 + n = k + (n + 1) := by omega
        rw [← this]
        exact hrs
      · rintro ⟨n, p', hget, hou, rs, hrs, hmv⟩
        cases n with
        | zero =>
          have hpp : p' = p := by simpa using hget.symm
          subst hpp
          exact absurd hou hours
        | succ n =>
          refine ⟨n, p', by simpa using hget, hou, rs, ?_, hmv⟩
          have : k + 1 + n = k + (n + 1) := by omega
          rw [this]
          exact hrs

lemma movesGo_sub {pos : Position} :
    ∀ {l : List Piece} {k : Nat} {ms : List Move}, movesGo pos l k = some ms →
      ∀ {n : Nat} {p : Piece}, l.get? n = some p → p.ours = true →
        ∃ rs, raysFor pos p (Int.ofNat (k + n)) (directions p) = some rs := by
  intro l
  induction l with
  | nil =>
    intro k ms _ n p hget _
    exact absurd hget (by simp)
  | cons p0 rest ih =>
    intro k ms h n p hget hou
    unfold movesGo at h
    by_cases hours : p0.ours = true
    · rw [if_pos hours] at h
      split at h
      next => exact absurd h (by simp)
      next m1 hm1 =>
        split at h
        next => exact absurd h (by simp)
        next m2 hm2 =>
          cases n with
          | zero =>
            have hpp : p = p0 := by simpa using hget.symm
            subst hpp
            refine ⟨m1, ?_⟩
            rw [show Int.ofNat (k + 0) = Int.ofNat k from by rw [Nat.add_zero]]
            exact hm1
          | succ n =>
            obtain ⟨rs, hrs⟩ := ih hm2 (by simpa using hget) hou
            refine ⟨rs, ?_⟩
            rw [show k + (n + 1) = k + 1 + n from by omega]
            exact hrs
    · rw [if_neg hours] at h
      cases n with
      | zero =>
        have hpp : p = p0 := by simpa using hget.symm
        subst hpp
        exact absurd hou hours
      | succ n =>
        obtain ⟨rs, hrs⟩ := ih h (by simpa using hget) hou
        refine ⟨rs, ?_⟩
        rw [show k + (n + 1) = k + 1 + n from by omega]
        exact hrs


/-- C5 counterexample: in `c5pos` the pawn on 65 is granted the diagonal
step onto the empty square 54 because 54 equals the king-passant
coordinate itself, although 54 is neither the en-passant target nor one
of the two squares adjacent to the king-passant coordinate. -/
theorem c5_pawn_diag_counterexample :
    (c5pos.moves).map (fun ms => decide (Move.mk 65 54 ∈ ms)) = some true ∧
    Board.get c5pos.board 65 = some 'P' ∧
    Board.get c5pos.board 54 = some '.' ∧
    ¬ (54 = c5pos.ep ∨ 54 = c5pos.kp - 1 ∨ 54 = c5pos.kp + 1) := by
  decide

lemma mem_pawn_ray {pos : Position} {ms : List Move}
    (hms : movesGo pos pos.board 0 = some ms) {i d : Int}
    (hP : Board.get pos.board i = some 'P')
    (hmem : Move.mk i (i + d) ∈ ms) :
    ∃ r, rayGo pos 'P' i d 130 (i + d) = some r ∧ Move.mk i (i + d) ∈ r := by
  have hi0 : 0 ≤ i := by
    by_contra h0
    unfold Board.get at hP
    rw [if_pos (by omega)] at hP
    cases hP
  have hgetnat : pos.board.get? i.toNat = some 'P' := by
    unfold Board.get at hP
    rw [if_neg (by omega)] at hP
    exact hP
  have horig : Int.ofNat (0 + i.toNat) = i := by
    rw [Nat.zero_add]
    exact Int.toNat_of_nonneg hi0
  obtain ⟨n, p', hget, hou, rs, hrs, hmv⟩ := (movesGo_mem hms _).mp hmem
  obtain ⟨d', hd', r, hr, hmvr⟩ := (raysFor_mem hrs _).mp hmv
  rcases rayGo_from hr (Move.mk i (i + d)) hmvr with hfrom | hK
  · have hofn : Int.ofNat (0 + n) = (n : Int) := by rw [Nat.zero_add]; rfl
    have hin : i = Int.ofNat (0 + n) := hfrom
    have hnn : n = i.toNat := by rw [hofn] at hin; omega
    subst hnn
    have hp' : p' = 'P' := Option.some.inj (hget.symm.trans hgetnat)
    subst hp'
    rw [horig] at hr
    have hmveq := rayGo_pawn hr (Move.mk i (i + d)) hmvr
    have hdd : d' = d := by
      have hto := congrArg Move.to' hmveq
      simp only [] at hto
      omega
    subst hdd
    exact ⟨r, hr, hmvr⟩
  · have hKi : Board.get pos.board i = some 'K' := hK
    rw [hP] at hKi
    exact absurd (Option.some.inj hKi) (by decide)

/-- C5 (amended): a pawn move one step diagonally forward onto an empty
square is generated if and only if the destination is the en-passant
target, the king-passant coordinate itself, or one of the two squares
adjacent to the king-passant coordinate; and a diagonal step onto an
occupied square is generated only when the occupant is an opposing piece
(not the off-board sentinel, not an own piece). -/
theorem c5_pawn_diag (pos : Position) (ms : List Move)
    (hms : pos.moves = some ms) (i d : Int)
    (hd : d = N + W ∨ d = N + E)
    (hP : Board.get pos.board i = some 'P') :
    (Board.get pos.board (i + d) = some '.' →
      (Move.mk i (i + d) ∈ ms ↔
        (i + d = pos.ep ∨ i + d = pos.kp ∨ i + d = pos.kp - 1 ∨ i + d = pos.kp + 1))) ∧
    (∀ q : Piece, Board.get pos.board (i + d) = some q → q ≠ '.' →
      Move.mk i (i + d) ∈ ms → q ≠ ' ' ∧ q.ours = false) := by
  have hi0 : 0 ≤ i := by
    by_contra h0
    unfold Board.get at hP
    rw [if_pos (by omega)] at hP
    cases hP
  have hgetnat : pos.board.get? i.toNat = some 'P' := by
    unfold Board.get at hP
    rw [if_neg (by omega)] at hP
    exact hP
  have horig : Int.ofNat (0 + i.toNat) = i := by
    rw [Nat.zero_add]
    exact Int.toNat_of_nonneg hi0
  unfold Position.moves at hms
  constructor
  · intro hempty
    constructor
    · intro hmem
      obtain ⟨r, hr, hmvr⟩ := mem_pawn_ray hms hP hmem
      exact (rayGo_pawn_diag hd hempty
        (show rayGo pos 'P' i d (129 + 1) (i + d) = some r from hr)).mp hmvr
    · intro hrhs
      have hdmem : d ∈ directions 'P' := by rcases hd with rfl | rfl <;> decide
      obtain ⟨rs, hrs⟩ := movesGo_sub hms hgetnat (by decide)
      have hrsI : raysFor pos 'P' i (directions 'P') = some rs := by
        rw [horig] at hrs
        exact hrs
      obtain ⟨r, hr⟩ := raysFor_sub hrsI hdmem
      have hmvr : Move.mk i (i + d) ∈ r :=
        (rayGo_pawn_diag hd hempty
          (show rayGo pos 'P' i d (129 + 1) (i + d) = some r from hr)).mpr hrhs
      refine (movesGo_mem hms _).mpr ⟨i.toNat, 'P', hgetnat, by decide, rs, ?_, ?_⟩
      · rw [horig]
        exact hrsI
      · exact (raysFor_mem hrsI _).mpr ⟨d, hdmem, r, hr, hmvr⟩
  · intro q hq hqd hmem
    obtain ⟨r, hr, hmvr⟩ := mem_pawn_ray hms hP hmem
    exact rayGo_pawn_diag_occupied hq hqd
      (show rayGo pos 'P' i d (129 + 1) (i + d) = some r from hr) hmvr

/-- Witness for C5's amended theorem at the king-passant fixture: the
diagonal 65 to 54 onto the empty king-passant square is generated. -/
theorem c5_pawn_diag_witness :
    (Move.mk 65 54 ∈ c5ms ↔
      ((54 : Int) = c5pos.ep ∨ (54 : Int) = c5pos.kp ∨
       (54 : Int) = c5pos.kp - 1 ∨ (54 : Int) = c5pos.kp + 1)) :=
  (c5_pawn_diag c5pos c5ms (by decide) 65 (N + W) (Or.inl rfl) (by decide)).1 (by decide)

end Carnatus
